import Mathlib

/-!
Verification of the scope/lifetime core of a fine-grained reactive runtime
(`leptos_reactive/src/scope.rs`): the scope arena, the disposal cascade,
stable node identity in the append-only containers, scoped tracking
suppression, hydration-key generation, and the suspense notification
channel registered by `register_suspense`.

Closures are embedded as opaque labels (their only observable inside this
subsystem is being invoked), and disposal returns the trace of observable
events it performs, in order.
-/

/-- Observable events emitted during scope disposal: clearing an effect's
dependencies (`effect.clear_dependencies()`) and invoking a registered
cleanup closure (`(cleanup)()`).  Effects and cleanups are identified by
opaque labels. -/
inductive Event where
  | clearDeps : Nat → Event
  | cleanup : Nat → Event
deriving DecidableEq

/-- Per-scope record, following `ScopeState` in scope.rs: parent link,
type-keyed context map, children ids, the three append-only node containers
(`signals`, `effects`, `resources`, payloads as opaque labels), and the list
of cleanup closures in registration order. -/
structure ScopeState where
  parent : Option Nat
  contexts : List (Nat × Nat)
  children : List Nat
  signals : List Nat
  effects : List Nat
  resources : List Nat
  cleanups : List Nat
deriving DecidableEq

/-- Modelled from the spec: the cross-instance correlation session
(`SharedContext`, hydration.rs, not under src/): a monotonic correlation-key
counter, an optional nested hydration context, and the registry of pending
fragments keyed by string (resolvers as opaque labels). -/
structure SharedContext where
  count : Nat
  context : Option Nat
  pending_fragments : List (String × Nat)
deriving DecidableEq

/-- Modelled from the spec: a fresh correlation session
(`SharedContext::default()`): counter at zero, no nested context, no pending
fragments. -/
def SharedContext.default : SharedContext :=
  { count := 0, context := none, pending_fragments := [] }

/-- Modelled from the spec: `SharedContext::next_hydration_key` (hydration.rs,
not under src/): each request returns the current ordinal formatted as a
token and increments the session counter. -/
def SharedContext.next_hydration_key (sc : SharedContext) : SharedContext × String :=
  ({ sc with count := sc.count + 1 }, toString sc.count)

/-- Modelled from the spec: `HydrationContext::next_hydration_context`
(hydration.rs, not under src/): derive a child context value from the
current one (hierarchical key namespacing). -/
def nextHydrationContext (c : Nat) : Nat := c + 1

/-- Modelled from the spec: the `Runtime` (runtime.rs, not under src/),
restricted to the fields scope.rs uses: the arena of scope states (an
association list keyed by ids that are never reused, standing for the
generational slotmap), the ambient tracking-suppression flag, and the
optional shared correlation context. -/
structure Runtime where
  scopes : List (Nat × ScopeState)
  untracking : Bool
  shared_context : Option SharedContext
deriving DecidableEq

/-- Arena lookup by key (first occurrence), as `SlotMap::get`. -/
def lookupA : List (Nat × ScopeState) → Nat → Option ScopeState
  | [], _ => none
  | (k, v) :: rest, id => if k = id then some v else lookupA rest id

/-- Arena removal by key, as `SlotMap::remove`: returns the removed state and
the remaining arena, or `none` when the key is absent. -/
def removeA : List (Nat × ScopeState) → Nat → Option (ScopeState × List (Nat × ScopeState))
  | [], _ => none
  | (k, v) :: rest, id =>
    if k = id then some (v, rest)
    else
      match removeA rest id with
      | none => none
      | some (s, rest') => some (s, (k, v) :: rest')

/-- Arena update in place (first occurrence). -/
def updateA : List (Nat × ScopeState) → Nat → ScopeState → List (Nat × ScopeState)
  | [], _, _ => []
  | (k, v) :: rest, id, s =>
    if k = id then (k, s) :: rest else (k, v) :: updateA rest id s

/-- The body of `Scope::dispose` (scope.rs lines 114-134), with explicit fuel
for the recursion over the arena (every recursive call is preceded by an
arena removal, so the arena size bounds the recursion depth):
remove the `ScopeState` from the runtime arena; if absent, do nothing;
otherwise recursively dispose every id drained from `children` in order,
then emit `clear_dependencies` for every effect in container order, then
invoke every cleanup in registration order.  The containers and context map
of the removed state are dropped with it (it never returns to the arena). -/
def disposeF : Nat → Runtime → Nat → Runtime × List Event
  | 0, rt, _ => (rt, [])
  | fuel + 1, rt, id =>
    match removeA rt.scopes id with
    | none => (rt, [])
    | some (s, rest) =>
      let pr := s.children.foldl
        (fun (acc : Runtime × List Event) c =>
          let p := disposeF fuel acc.1 c
          (p.1, acc.2 ++ p.2))
        ({ rt with scopes := rest }, [])
      (pr.1, pr.2 ++ s.effects.map Event.clearDeps ++ s.cleanups.map Event.cleanup)

/-- `Scope::dispose`: run the disposal recursion with the arena size as fuel
(sufficient, since each recursive step removes one arena entry first). -/
def Scope.dispose (rt : Runtime) (id : Nat) : Runtime × List Event :=
  disposeF rt.scopes.length rt id

/-- Sequential disposal of a list of scope ids at fixed fuel, threading the
runtime and concatenating the traces; the specification of the `for id in
scope.children.take()` loop in `Scope::dispose`. -/
def disposeSeq (fuel : Nat) (rt : Runtime) : List Nat → Runtime × List Event
  | [] => (rt, [])
  | c :: cs =>
    let p := disposeF fuel rt c
    let q := disposeSeq fuel p.1 cs
    (q.1, p.2 ++ q.2)

/-- Modelled from the spec: `Runtime::scope` (runtime.rs, not under src/):
look up the `ScopeState` for the id and apply the closure to it; on a
disposed (absent) id it is default-returning and leaves the runtime
untouched. -/
def Runtime.scopeApply {α : Type} (rt : Runtime) (id : Nat) (d : α)
    (f : ScopeState → ScopeState × α) : Runtime × α :=
  match lookupA rt.scopes id with
  | some s =>
    let p := f s
    ({ rt with scopes := updateA rt.scopes id p.1 }, p.2)
  | none => (rt, d)

/-- Typed identity of a signal within its scope (`SignalId`). -/
structure SignalId where
  val : Nat
deriving DecidableEq

/-- Typed identity of an effect within its scope (`EffectId`). -/
structure EffectId where
  val : Nat
deriving DecidableEq

/-- Typed identity of a resource within its scope (`ResourceId`). -/
structure ResourceId where
  val : Nat
deriving DecidableEq

/-- `Scope::push_signal` (scope.rs lines 83-91): push the state onto the
scope's `signals` container and return the container length minus one as the
new `SignalId`. -/
def Scope.push_signal (rt : Runtime) (id : Nat) (p : Nat) : Runtime × SignalId :=
  rt.scopeApply id (SignalId.mk 0) fun s =>
    let signals' := s.signals ++ [p]
    ({ s with signals := signals' }, SignalId.mk (signals'.length - 1))

/-- `Scope::push_effect` (scope.rs lines 93-101): push the state onto the
scope's `effects` container and return the container length minus one as the
new `EffectId`. -/
def Scope.push_effect (rt : Runtime) (id : Nat) (p : Nat) : Runtime × EffectId :=
  rt.scopeApply id (EffectId.mk 0) fun s =>
    let effects' := s.effects ++ [p]
    ({ s with effects := effects' }, EffectId.mk (effects'.length - 1))

/-- `Scope::push_resource` (scope.rs lines 103-112): push the state onto the
scope's `resources` container and return the container length minus one as
the new `ResourceId`. -/
def Scope.push_resource (rt : Runtime) (id : Nat) (p : Nat) : Runtime × ResourceId :=
  rt.scopeApply id (ResourceId.mk 0) fun s =>
    let resources' := s.resources ++ [p]
    ({ s with resources := resources' }, ResourceId.mk (resources'.length - 1))

/-- Repeated `push_signal` calls on one scope, collecting the returned ids in
call order. -/
def pushSignals (rt : Runtime) (id : Nat) : List Nat → Runtime × List SignalId
  | [] => (rt, [])
  | p :: ps =>
    let q := Scope.push_signal rt id p
    let r := pushSignals q.1 id ps
    (r.1, q.2 :: r.2)

/-- Repeated `push_effect` calls on one scope, collecting the returned ids in
call order. -/
def pushEffects (rt : Runtime) (id : Nat) : List Nat → Runtime × List EffectId
  | [] => (rt, [])
  | p :: ps =>
    let q := Scope.push_effect rt id p
    let r := pushEffects q.1 id ps
    (r.1, q.2 :: r.2)

/-- Repeated `push_resource` calls on one scope, collecting the returned ids
in call order. -/
def pushResources (rt : Runtime) (id : Nat) : List Nat → Runtime × List ResourceId
  | [] => (rt, [])
  | p :: ps =>
    let q := Scope.push_resource rt id p
    let r := pushResources q.1 id ps
    (r.1, q.2 :: r.2)

/-- Modelled from the spec: `Runtime::untrack` (runtime.rs, not under src/):
set the ambient tracking-suppression flag for the duration of the closure
and restore the prior value afterward on every exit path, forwarding the
closure's outcome.  The closure receives the runtime (so it may itself
toggle the flag) and returns its outcome as `Except` (an `Except.error`
stands for an abnormal exit that unwinds through the caller). -/
def Runtime.untrack {ε α : Type} (rt : Runtime)
    (f : Runtime → Runtime × Except ε α) : Runtime × Except ε α :=
  let prev := rt.untracking
  let p := f { rt with untracking := true }
  ({ p.1 with untracking := prev }, p.2)

/-- `Scope::untrack` (scope.rs lines 76-78): delegates to the runtime. -/
def Scope.untrack {ε α : Type} (rt : Runtime)
    (f : Runtime → Runtime × Except ε α) : Runtime × Except ε α :=
  Runtime.untrack rt f

/-- `Scope::next_hydration_key` (scope.rs lines 229-239): when a correlation
session is active, take its next key; otherwise lazily create a fresh
session, take that session's first key, and install the advanced session in
the runtime. -/
def Scope.next_hydration_key (rt : Runtime) : Runtime × String :=
  match rt.shared_context with
  | some sc =>
    let p := sc.next_hydration_key
    ({ rt with shared_context := some p.1 }, p.2)
  | none =>
    let new_sc := SharedContext.default
    let p := new_sc.next_hydration_key
    ({ rt with shared_context := some p.1 }, p.2)

/-- Repeated `Scope::next_hydration_key` requests, collecting the keys in
request order. -/
def nextHydrationKeys : Runtime → Nat → List String
  | _, 0 => []
  | rt, n + 1 =>
    let p := Scope.next_hydration_key rt
    p.2 :: nextHydrationKeys p.1 n

/-- `Scope::with_next_context` (scope.rs lines 241-272): when a nested
hydration context is active, swap in a derived child context, run the
closure untracked, and on normal return write the previous context back (an
`Except.error` outcome models a panic unwinding past the write-back, which
the source performs only after `untrack(f)` returns); when no nested context
is active, just run the closure untracked. -/
def Scope.with_next_context {ε α : Type} (rt : Runtime)
    (f : Runtime → Runtime × Except ε α) : Runtime × Except ε α :=
  if (rt.shared_context.bind SharedContext.context).isSome then
    let swap : Option Nat × Runtime :=
      match rt.shared_context with
      | some sc =>
        match sc.context with
        | some context =>
          let next := nextHydrationContext context
          (some context, { rt with shared_context := some { sc with context := some next } })
        | none => (none, rt)
      | none => (none, rt)
    let c := swap.1
    let p := Runtime.untrack swap.2 f
    match p.2 with
    | Except.ok v =>
      let rt3 :=
        match p.1.shared_context with
        | some sc => { p.1 with shared_context := some { sc with context := c } }
        | none => p.1
      (rt3, Except.ok v)
    | Except.error e => (p.1, Except.error e)
  else
    Runtime.untrack rt f

/-- The condition the producer effect registered by `Scope::register_suspense`
evaluates on each run (scope.rs lines 312-320): it signals the channel
exactly when the pending-resource count it reads is zero. -/
def suspenseEffectBody (pending : Nat) : Bool := pending == 0

/-- One step of the suspense hand-off registered by `register_suspense`
(scope.rs lines 299-330): either a re-evaluation of the producer effect that
read a given pending-resource count, or the pending fragment's future
polling the notification channel. -/
inductive SuspStep where
  | effectRun : Nat → SuspStep
  | consume : SuspStep
deriving DecidableEq

/-- State of the single-slot notification channel and the pending fragment:
`slot` is the channel occupancy (capacity one; `try_send` on a full channel
is dropped), `resolved` records that the fragment's future received the
notification and ran its resolver, and `sent` counts the successful sends
that happened before the fragment resolved. -/
structure SuspState where
  slot : Bool
  resolved : Bool
  sent : Nat
deriving DecidableEq

/-- Initial suspense state: empty channel, fragment unresolved. -/
def suspInit : SuspState := { slot := false, resolved := false, sent := 0 }

/-- Transition of the suspense hand-off: the producer effect sends into the
single-slot channel exactly when `suspenseEffectBody` holds of the count it
read (a send into a full slot is dropped, as `try_send` on a capacity-one
channel); the consumer resolves the fragment exactly when a notification is
available. -/
def suspStep (s : SuspState) : SuspStep → SuspState
  | SuspStep.effectRun p =>
    if suspenseEffectBody p then
      if s.slot then s
      else { s with slot := true, sent := s.sent + (if s.resolved then 0 else 1) }
    else s
  | SuspStep.consume =>
    if s.slot then { s with slot := false, resolved := true } else s

/-- Run the suspense hand-off over a trace of steps. -/
def suspRun (s : SuspState) (tr : List SuspStep) : SuspState :=
  tr.foldl suspStep s

/-! ### Arena lemmas -/

/-- A key that is absent from the arena is exactly one that `removeA` fails
on. -/
theorem removeA_eq_none (l : List (Nat × ScopeState)) (id : Nat) :
    removeA l id = none ↔ lookupA l id = none := by
  induction l with
  | nil => simp [removeA, lookupA]
  | cons hd t ih =>
    obtain ⟨k, v⟩ := hd
    by_cases hk : k = id
    · simp [removeA, lookupA, hk]
    · simp only [removeA, lookupA, if_neg hk]
      rw [← ih]
      cases h : removeA t id with
      | none => simp [h]
      | some pr => simp [h]

/-- Removal shrinks the arena by exactly one entry. -/
theorem removeA_length {l : List (Nat × ScopeState)} {id : Nat} {s : ScopeState}
    {r : List (Nat × ScopeState)} (h : removeA l id = some (s, r)) :
    l.length = r.length + 1 := by
  induction l generalizing s r with
  | nil => simp [removeA] at h
  | cons hd t ih =>
    obtain ⟨k, v⟩ := hd
    by_cases hk : k = id
    · simp only [removeA, if_pos hk] at h
      obtain ⟨h1, h2⟩ := Prod.mk.injEq .. ▸ (Option.some.injEq .. ▸ h)
      simp [← h2]
    · simp only [removeA, if_neg hk] at h
      cases hr : removeA t id with
      | none => rw [hr] at h; exact absurd h (by simp)
      | some pr =>
        obtain ⟨s2, r2⟩ := pr
        rw [hr] at h
        simp only [Option.some.injEq, Prod.mk.injEq] at h
        obtain ⟨hs, hrr⟩ := h
        subst hrr
        simp [ih hr]

/-- A key absent from the arena stays absent after removing any key. -/
theorem removeA_preserves_none {l r : List (Nat × ScopeState)} {j k : Nat}
    {s : ScopeState} (hk : lookupA l k = none) (h : removeA l j = some (s, r)) :
    lookupA r k = none := by
  induction l generalizing s r with
  | nil => simp [removeA] at h
  | cons hd t ih =>
    obtain ⟨a, b⟩ := hd
    simp only [lookupA] at hk
    by_cases hak : a = k
    · simp [if_pos hak] at hk
    · rw [if_neg hak] at hk
      by_cases haj : a = j
      · simp only [removeA, if_pos haj, Option.some.injEq, Prod.mk.injEq] at h
        exact h.2 ▸ hk
      · simp only [removeA, if_neg haj] at h
        cases hr : removeA t j with
        | none => rw [hr] at h; exact absurd h (by simp)
        | some pr =>
          obtain ⟨s2, r2⟩ := pr
          rw [hr] at h
          simp only [Option.some.injEq, Prod.mk.injEq] at h
          obtain ⟨hs, hrr⟩ := h
          subst hrr
          simp only [lookupA, if_neg hak]
          exact ih hk hr

/-- Lookup of a key that is not among the arena's keys fails. -/
theorem lookupA_not_mem {l : List (Nat × ScopeState)} {k : Nat}
    (h : k ∉ l.map Prod.fst) : lookupA l k = none := by
  induction l with
  | nil => rfl
  | cons hd t ih =>
    obtain ⟨a, b⟩ := hd
    simp only [List.map_cons, List.mem_cons] at h
    push_neg at h
    have hak : ¬(a = k) := fun he => h.1 he.symm
    simp only [lookupA, if_neg hak]
    exact ih h.2

/-- With no duplicate keys, a removed key no longer resolves in the remaining
arena. -/
theorem removeA_self_none {l r : List (Nat × ScopeState)} {id : Nat}
    {s : ScopeState} (hnd : (l.map Prod.fst).Nodup)
    (h : removeA l id = some (s, r)) : lookupA r id = none := by
  induction l generalizing s r with
  | nil => simp [removeA] at h
  | cons hd t ih =>
    obtain ⟨a, b⟩ := hd
    simp only [List.map_cons, List.nodup_cons] at hnd
    by_cases ha : a = id
    · simp only [removeA, if_pos ha] at h
      obtain ⟨h1, h2⟩ := Prod.mk.injEq .. ▸ (Option.some.injEq .. ▸ h)
      rw [← h2]
      exact lookupA_not_mem (ha ▸ hnd.1)
    · simp only [removeA, if_neg ha] at h
      cases hr : removeA t id with
      | none => rw [hr] at h; exact absurd h (by simp)
      | some pr =>
        obtain ⟨s2, r2⟩ := pr
        rw [hr] at h
        simp only [Option.some.injEq, Prod.mk.injEq] at h
        obtain ⟨hs, hrr⟩ := h
        subst hrr
        simp only [lookupA, if_neg ha]
        exact ih hnd.2 hr

/-- Updating a key that resolves makes lookup return the new state. -/
theorem lookupA_updateA_self {l : List (Nat × ScopeState)} {id : Nat}
    {s v : ScopeState} (h : lookupA l id = some s) :
    lookupA (updateA l id v) id = some v := by
  induction l with
  | nil => simp [lookupA] at h
  | cons hd t ih =>
    obtain ⟨a, b⟩ := hd
    by_cases ha : a = id
    · simp [updateA, lookupA, if_pos ha]
    · simp only [lookupA, if_neg ha] at h
      simp only [updateA, lookupA, if_neg ha]
      exact ih h

/-! ### Disposal lemmas -/

/-- The children loop inside `disposeF` is `disposeSeq`. -/
theorem disposeFold_eq (fuel : Nat) (cs : List Nat) :
    ∀ (rt : Runtime) (acc : List Event),
      cs.foldl (fun (a : Runtime × List Event) c =>
          let p := disposeF fuel a.1 c
          (p.1, a.2 ++ p.2)) (rt, acc)
        = ((disposeSeq fuel rt cs).1, acc ++ (disposeSeq fuel rt cs).2) := by
  induction cs with
  | nil => intro rt acc; simp [disposeSeq]
  | cons c cs ih =>
    intro rt acc
    simp only [List.foldl_cons, disposeSeq]
    rw [ih]
    simp [List.append_assoc]

/-- Unfolding of a successful disposal step: children first (against the
arena with the scope already removed), then effect dependency clearing, then
cleanups. -/
theorem disposeF_succ_some {fuel : Nat} {rt : Runtime} {id : Nat}
    {s : ScopeState} {rest : List (Nat × ScopeState)}
    (h : removeA rt.scopes id = some (s, rest)) :
    disposeF (fuel + 1) rt id =
      ((disposeSeq fuel { rt with scopes := rest } s.children).1,
        (disposeSeq fuel { rt with scopes := rest } s.children).2
          ++ s.effects.map Event.clearDeps ++ s.cleanups.map Event.cleanup) := by
  simp only [disposeF, h]
  rw [disposeFold_eq]
  simp

/-- Disposing an id that is absent from the arena is a no-op at any fuel. -/
theorem disposeF_noop {fuel : Nat} {rt : Runtime} {id : Nat}
    (h : removeA rt.scopes id = none) : disposeF fuel rt id = (rt, []) := by
  cases fuel with
  | zero => rfl
  | succ n => simp [disposeF, h]

/-- Disposal never (re)introduces arena entries: an absent key stays absent. -/
theorem disposeF_preserves_none :
    ∀ (fuel : Nat) (rt : Runtime) (j k : Nat),
      lookupA rt.scopes k = none → lookupA (disposeF fuel rt j).1.scopes k = none := by
  intro fuel
  induction fuel with
  | zero =>
    intro rt j k h
    simpa [disposeF] using h
  | succ n ih =>
    have seqP : ∀ (cs : List Nat) (rt : Runtime) (k : Nat),
        lookupA rt.scopes k = none → lookupA (disposeSeq n rt cs).1.scopes k = none := by
      intro cs
      induction cs with
      | nil => intro rt k h; simpa [disposeSeq] using h
      | cons c cs ihc =>
        intro rt k h
        simp only [disposeSeq]
        exact ihc _ _ (ih _ _ _ h)
    intro rt j k h
    cases hr : removeA rt.scopes j with
    | none => simpa [disposeF_noop hr] using h
    | some pr =>
      obtain ⟨s, rest⟩ := pr
      rw [disposeF_succ_some hr]
      exact seqP _ _ _ (removeA_preserves_none h hr)

/-- Sequential disposal never (re)introduces arena entries. -/
theorem disposeSeq_preserves_none (fuel : Nat) (cs : List Nat) :
    ∀ (rt : Runtime) (k : Nat), lookupA rt.scopes k = none →
      lookupA (disposeSeq fuel rt cs).1.scopes k = none := by
  induction cs with
  | nil => intro rt k h; simpa [disposeSeq] using h
  | cons c cs ih =>
    intro rt k h
    simp only [disposeSeq]
    exact ih _ _ (disposeF_preserves_none fuel _ c k h)

/-! ### Claim theorems: disposal -/

/-- C1: for every live scope, `dispose()` performs exactly this sequence:
first remove the `ScopeState` from the runtime arena under its id (so the
recursive child disposals already operate on the arena without it), then
recursively dispose every id drained from the children list in order, then
invoke clear-dependencies on every effect node of the detached state, then
drain and invoke every cleanup closure in registration order; the detached
state (node containers and context map) never returns to the arena and is
dropped. -/
theorem dispose_sequence (rt : Runtime) (id : Nat) (s : ScopeState)
    (rest : List (Nat × ScopeState)) (h : removeA rt.scopes id = some (s, rest)) :
    Scope.dispose rt id =
      ((disposeSeq rest.length { rt with scopes := rest } s.children).1,
        (disposeSeq rest.length { rt with scopes := rest } s.children).2
          ++ s.effects.map Event.clearDeps ++ s.cleanups.map Event.cleanup) := by
  have hlen : rt.scopes.length = rest.length + 1 := removeA_length h
  unfold Scope.dispose
  rw [hlen]
  exact disposeF_succ_some h

/-- Witness for C1 on a one-scope arena with one effect and cleanups
registered in the order 3, 4. -/
theorem dispose_sequence_witness :
    removeA [(0, (⟨none, [], [], [], [7], [], [3, 4]⟩ : ScopeState))] 0
        = some (⟨none, [], [], [], [7], [], [3, 4]⟩, []) ∧
    Scope.dispose ⟨[(0, ⟨none, [], [], [], [7], [], [3, 4]⟩)], false, none⟩ 0
      = ((disposeSeq 0 ⟨[], false, none⟩ []).1,
          (disposeSeq 0 ⟨[], false, none⟩ []).2
            ++ [7].map Event.clearDeps ++ [3, 4].map Event.cleanup) :=
  ⟨by decide,
    dispose_sequence ⟨[(0, ⟨none, [], [], [], [7], [], [3, 4]⟩)], false, none⟩ 0
      ⟨none, [], [], [], [7], [], [3, 4]⟩ [] (by decide)⟩

/-- A runtime holding the tree root (id 0) → child A (id 1) → grandchild B
(id 2), with the given cleanup lists and no reactive nodes. -/
def treeRt (cR cA cB : List Nat) : Runtime :=
  ⟨[(0, ⟨none, [], [1], [], [], [], cR⟩),
    (1, ⟨some 0, [], [2], [], [], [], cA⟩),
    (2, ⟨some 1, [], [], [], [], [], cB⟩)], false, none⟩

/-- The cleanup constructor is injective (distinct labels give distinct
events). -/
theorem cleanup_injective : Function.Injective Event.cleanup := by
  intro a b h
  injection h

/-- C2: disposing the root of a root → A → B tree yields exactly B's
cleanups, then A's, then the root's; in particular each registered cleanup
runs exactly once (counts add up over the three lists). -/
theorem dispose_cascade (cR cA cB : List Nat) :
    (Scope.dispose (treeRt cR cA cB) 0).2
        = cB.map Event.cleanup ++ cA.map Event.cleanup ++ cR.map Event.cleanup ∧
    ∀ x : Nat, (Scope.dispose (treeRt cR cA cB) 0).2.count (Event.cleanup x)
        = cB.count x + cA.count x + cR.count x := by
  have h : (Scope.dispose (treeRt cR cA cB) 0).2
      = cB.map Event.cleanup ++ cA.map Event.cleanup ++ cR.map Event.cleanup := by
    simp [treeRt, Scope.dispose, disposeF, removeA]
  refine ⟨h, fun x => ?_⟩
  rw [h]
  simp [List.count_append, List.count_map_of_injective _ Event.cleanup cleanup_injective,
    Nat.add_assoc]

/-- C3: disposal is idempotent: after a first `dispose()`, disposing the
same id again leaves the runtime unchanged and performs no events, so each
cleanup runs exactly once across any number of disposal calls (every later
call starts from the same already-disposed state). -/
theorem dispose_idempotent (rt : Runtime) (id : Nat)
    (hnd : (rt.scopes.map Prod.fst).Nodup) :
    Scope.dispose (Scope.dispose rt id).1 id = ((Scope.dispose rt id).1, []) := by
  cases hr : removeA rt.scopes id with
  | none =>
    have h1 : Scope.dispose rt id = (rt, []) := disposeF_noop hr
    rw [h1]
    exact disposeF_noop hr
  | some pr =>
    obtain ⟨s, rest⟩ := pr
    have hnone : lookupA (Scope.dispose rt id).1.scopes id = none := by
      have hlen : rt.scopes.length = rest.length + 1 := removeA_length hr
      unfold Scope.dispose
      rw [hlen, disposeF_succ_some hr]
      exact disposeSeq_preserves_none _ _ _ _ (removeA_self_none hnd hr)
    exact disposeF_noop ((removeA_eq_none _ _).mpr hnone)

/-- Witness for C3 on a parent/child arena with distinct keys. -/
theorem dispose_idempotent_witness :
    (([(0, ⟨none, [], [1], [], [], [], [5]⟩),
        (1, ⟨some 0, [], [], [], [], [], [6]⟩)] :
          List (Nat × ScopeState)).map Prod.fst).Nodup ∧
    Scope.dispose
        (Scope.dispose ⟨[(0, ⟨none, [], [1], [], [], [], [5]⟩),
                          (1, ⟨some 0, [], [], [], [], [], [6]⟩)], false, none⟩ 0).1 0
      = ((Scope.dispose ⟨[(0, ⟨none, [], [1], [], [], [], [5]⟩),
                          (1, ⟨some 0, [], [], [], [], [], [6]⟩)], false, none⟩ 0).1, []) :=
  ⟨by decide,
    dispose_idempotent ⟨[(0, ⟨none, [], [1], [], [], [], [5]⟩),
                          (1, ⟨some 0, [], [], [], [], [], [6]⟩)], false, none⟩ 0 (by decide)⟩

/-- C5: every operation taking a scope handle is a silent no-op or
default-returning call on a disposed (absent) id: the pushes return the
default identifier and leave the runtime untouched, and dispose performs no
events; nothing panics and no released state is mutated. -/
theorem disposed_scope_noop (rt : Runtime) (id : Nat) (p q r : Nat)
    (h : lookupA rt.scopes id = none) :
    Scope.push_signal rt id p = (rt, SignalId.mk 0) ∧
    Scope.push_effect rt id q = (rt, EffectId.mk 0) ∧
    Scope.push_resource rt id r = (rt, ResourceId.mk 0) ∧
    Scope.dispose rt id = (rt, []) := by
  refine ⟨?_, ?_, ?_, ?_⟩
  · simp [Scope.push_signal, Runtime.scopeApply, h]
  · simp [Scope.push_effect, Runtime.scopeApply, h]
  · simp [Scope.push_resource, Runtime.scopeApply, h]
  · exact disposeF_noop ((removeA_eq_none _ _).mpr h)

/-- Witness for C5: operating on id 9 in an arena that only holds id 0. -/
theorem disposed_scope_noop_witness :
    lookupA [(0, (⟨none, [], [], [], [], [], []⟩ : ScopeState))] 9 = none ∧
    (Scope.push_signal ⟨[(0, ⟨none, [], [], [], [], [], []⟩)], false, none⟩ 9 11
        = (⟨[(0, ⟨none, [], [], [], [], [], []⟩)], false, none⟩, SignalId.mk 0) ∧
      Scope.push_effect ⟨[(0, ⟨none, [], [], [], [], [], []⟩)], false, none⟩ 9 12
        = (⟨[(0, ⟨none, [], [], [], [], [], []⟩)], false, none⟩, EffectId.mk 0) ∧
      Scope.push_resource ⟨[(0, ⟨none, [], [], [], [], [], []⟩)], false, none⟩ 9 13
        = (⟨[(0, ⟨none, [], [], [], [], [], []⟩)], false, none⟩, ResourceId.mk 0) ∧
      Scope.dispose ⟨[(0, ⟨none, [], [], [], [], [], []⟩)], false, none⟩ 9
        = (⟨[(0, ⟨none, [], [], [], [], [], []⟩)], false, none⟩, [])) :=
  ⟨by decide,
    disposed_scope_noop ⟨[(0, ⟨none, [], [], [], [], [], []⟩)], false, none⟩ 9 11 12 13
      (by decide)⟩

/-! ### Push lemmas and stable identity -/

/-- Pushing a list of signals onto a live scope returns the consecutive
indices starting at the current container length, and extends the container
by exactly the pushed payloads in order. -/
theorem pushSignals_spec (ps : List Nat) :
    ∀ (rt : Runtime) (id : Nat) (s : ScopeState), lookupA rt.scopes id = some s →
      (pushSignals rt id ps).2 = (List.range' s.signals.length ps.length).map SignalId.mk ∧
      ∃ s2, lookupA (pushSignals rt id ps).1.scopes id = some s2 ∧
        s2.signals = s.signals ++ ps := by
  induction ps with
  | nil =>
    intro rt id s h
    exact ⟨by simp [pushSignals], s, by simpa [pushSignals] using h, by simp⟩
  | cons p ps ih =>
    intro rt id s h
    have hpush : Scope.push_signal rt id p
        = ({ rt with scopes := updateA rt.scopes id { s with signals := s.signals ++ [p] } },
            SignalId.mk s.signals.length) := by
      simp [Scope.push_signal, Runtime.scopeApply, h]
    have hlook : lookupA (Scope.push_signal rt id p).1.scopes id
        = some { s with signals := s.signals ++ [p] } := by
      rw [hpush]
      exact lookupA_updateA_self h
    obtain ⟨ih1, s2, ih2, ih3⟩ := ih (Scope.push_signal rt id p).1 id _ hlook
    constructor
    · simp only [pushSignals]
      rw [ih1, hpush]
      simp [List.range'_succ]
    · refine ⟨s2, ih2, ?_⟩
      rw [ih3]
      simp

/-- Pushing a list of effects onto a live scope returns the consecutive
indices starting at the current container length, and extends the container
by exactly the pushed payloads in order. -/
theorem pushEffects_spec (ps : List Nat) :
    ∀ (rt : Runtime) (id : Nat) (s : ScopeState), lookupA rt.scopes id = some s →
      (pushEffects rt id ps).2 = (List.range' s.effects.length ps.length).map EffectId.mk ∧
      ∃ s2, lookupA (pushEffects rt id ps).1.scopes id = some s2 ∧
        s2.effects = s.effects ++ ps := by
  induction ps with
  | nil =>
    intro rt id s h
    exact ⟨by simp [pushEffects], s, by simpa [pushEffects] using h, by simp⟩
  | cons p ps ih =>
    intro rt id s h
    have hpush : Scope.push_effect rt id p
        = ({ rt with scopes := updateA rt.scopes id { s with effects := s.effects ++ [p] } },
            EffectId.mk s.effects.length) := by
      simp [Scope.push_effect, Runtime.scopeApply, h]
    have hlook : lookupA (Scope.push_effect rt id p).1.scopes id
        = some { s with effects := s.effects ++ [p] } := by
      rw [hpush]
      exact lookupA_updateA_self h
    obtain ⟨ih1, s2, ih2, ih3⟩ := ih (Scope.push_effect rt id p).1 id _ hlook
    constructor
    · simp only [pushEffects]
      rw [ih1, hpush]
      simp [List.range'_succ]
    · refine ⟨s2, ih2, ?_⟩
      rw [ih3]
      simp

/-- Pushing a list of resources onto a live scope returns the consecutive
indices starting at the current container length, and extends the container
by exactly the pushed payloads in order. -/
theorem pushResources_spec (ps : List Nat) :
    ∀ (rt : Runtime) (id : Nat) (s : ScopeState), lookupA rt.scopes id = some s →
      (pushResources rt id ps).2 = (List.range' s.resources.length ps.length).map ResourceId.mk ∧
      ∃ s2, lookupA (pushResources rt id ps).1.scopes id = some s2 ∧
        s2.resources = s.resources ++ ps := by
  induction ps with
  | nil =>
    intro rt id s h
    exact ⟨by simp [pushResources], s, by simpa [pushResources] using h, by simp⟩
  | cons p ps ih =>
    intro rt id s h
    have hpush : Scope.push_resource rt id p
        = ({ rt with scopes := updateA rt.scopes id { s with resources := s.resources ++ [p] } },
            ResourceId.mk s.resources.length) := by
      simp [Scope.push_resource, Runtime.scopeApply, h]
    have hlook : lookupA (Scope.push_resource rt id p).1.scopes id
        = some { s with resources := s.resources ++ [p] } := by
      rw [hpush]
      exact lookupA_updateA_self h
    obtain ⟨ih1, s2, ih2, ih3⟩ := ih (Scope.push_resource rt id p).1 id _ hlook
    constructor
    · simp only [pushResources]
      rw [ih1, hpush]
      simp [List.range'_succ]
    · refine ⟨s2, ih2, ?_⟩
      rw [ih3]
      simp

/-- C4: on a scope whose containers start empty, the Nth push (counting from
one) returns index N-1, so pushing N payloads yields the ids 0 through N-1
in push order; the final container holds exactly the pushed payloads in
order, so the slot behind an earlier index is never changed or reused by a
later push; and the same holds independently for `push_signal`,
`push_effect` and `push_resource` over their own containers. -/
theorem push_indices (rt : Runtime) (id : Nat) (s : ScopeState)
    (ps qs rs : List Nat) (h : lookupA rt.scopes id = some s)
    (hsig : s.signals = []) (heff : s.effects = []) (hres : s.resources = []) :
    (pushSignals rt id ps).2 = (List.range ps.length).map SignalId.mk ∧
    (∃ s2, lookupA (pushSignals rt id ps).1.scopes id = some s2 ∧ s2.signals = ps) ∧
    (pushEffects rt id qs).2 = (List.range qs.length).map EffectId.mk ∧
    (∃ s2, lookupA (pushEffects rt id qs).1.scopes id = some s2 ∧ s2.effects = qs) ∧
    (pushResources rt id rs).2 = (List.range rs.length).map ResourceId.mk ∧
    (∃ s2, lookupA (pushResources rt id rs).1.scopes id = some s2 ∧ s2.resources = rs) := by
  obtain ⟨a1, sa, a2, a3⟩ := pushSignals_spec ps rt id s h
  obtain ⟨b1, sb, b2, b3⟩ := pushEffects_spec qs rt id s h
  obtain ⟨c1, sc2, c2, c3⟩ := pushResources_spec rs rt id s h
  rw [hsig] at a1 a3
  rw [heff] at b1 b3
  rw [hres] at c1 c3
  simp only [List.length_nil, List.nil_append] at a1 a3 b1 b3 c1 c3
  exact ⟨by rw [a1, List.range_eq_range'], ⟨sa, a2, a3⟩,
    by rw [b1, List.range_eq_range'], ⟨sb, b2, b3⟩,
    by rw [c1, List.range_eq_range'], ⟨sc2, c2, c3⟩⟩

/-- Witness for C4: three pushes of each kind onto a fresh scope yield ids
0, 1, 2 and containers equal to the pushed payload lists. -/
theorem push_indices_witness :
    lookupA [(0, (⟨none, [], [], [], [], [], []⟩ : ScopeState))] 0
        = some ⟨none, [], [], [], [], [], []⟩ ∧
    ((pushSignals ⟨[(0, ⟨none, [], [], [], [], [], []⟩)], false, none⟩ 0 [10, 11, 12]).2
        = (List.range 3).map SignalId.mk ∧
      (∃ s2, lookupA (pushSignals ⟨[(0, ⟨none, [], [], [], [], [], []⟩)], false, none⟩ 0
            [10, 11, 12]).1.scopes 0 = some s2 ∧ s2.signals = [10, 11, 12]) ∧
      (pushEffects ⟨[(0, ⟨none, [], [], [], [], [], []⟩)], false, none⟩ 0 [20, 21]).2
        = (List.range 2).map EffectId.mk ∧
      (∃ s2, lookupA (pushEffects ⟨[(0, ⟨none, [], [], [], [], [], []⟩)], false, none⟩ 0
            [20, 21]).1.scopes 0 = some s2 ∧ s2.effects = [20, 21]) ∧
      (pushResources ⟨[(0, ⟨none, [], [], [], [], [], []⟩)], false, none⟩ 0 [30]).2
        = (List.range 1).map ResourceId.mk ∧
      (∃ s2, lookupA (pushResources ⟨[(0, ⟨none, [], [], [], [], [], []⟩)], false, none⟩ 0
            [30]).1.scopes 0 = some s2 ∧ s2.resources = [30])) :=
  ⟨by decide,
    push_indices ⟨[(0, ⟨none, [], [], [], [], [], []⟩)], false, none⟩ 0
      ⟨none, [], [], [], [], [], []⟩ [10, 11, 12] [20, 21] [30]
      (by decide) (by decide) (by decide) (by decide)⟩

/-! ### Untracking and hydration keys -/

/-- C6: the ambient tracking-suppression flag observed immediately after
`untrack(f)` equals its value immediately before the call, whatever `f` did
to the flag internally and however it exited (normally or abnormally, the
latter modelled by an `Except.error` outcome), and `untrack(f)` forwards
`f`'s result, with `f` run on the runtime whose flag is set. -/
theorem untrack_restores_flag {ε α : Type} (rt : Runtime)
    (f : Runtime → Runtime × Except ε α) :
    (Scope.untrack rt f).1.untracking = rt.untracking ∧
    (Scope.untrack rt f).2 = (f { rt with untracking := true }).2 :=
  ⟨rfl, rfl⟩

/-- The keys produced from an active session are the consecutive ordinals
starting at the session counter. -/
theorem nextHydrationKeys_some (n : Nat) :
    ∀ (rt : Runtime) (sc : SharedContext), rt.shared_context = some sc →
      nextHydrationKeys rt n = (List.range' sc.count n).map (fun i => toString i) := by
  induction n with
  | zero => intro rt sc h; simp [nextHydrationKeys]
  | succ m ih =>
    intro rt sc h
    have hstep : Scope.next_hydration_key rt
        = ({ rt with shared_context := some { sc with count := sc.count + 1 } },
            toString sc.count) := by
      simp [Scope.next_hydration_key, h, SharedContext.next_hydration_key]
    simp only [nextHydrationKeys]
    rw [hstep]
    rw [ih { rt with shared_context := some { sc with count := sc.count + 1 } }
      { sc with count := sc.count + 1 } rfl]
    simp [List.range'_succ]

/-- Requesting `n` keys with no active session yields the ordinals 0..n-1. -/
theorem nextHydrationKeys_fresh (n : Nat) (rt : Runtime)
    (h : rt.shared_context = none) :
    nextHydrationKeys rt n = (List.range n).map (fun i => toString i) := by
  cases n with
  | zero => simp [nextHydrationKeys]
  | succ m =>
    have hstep : Scope.next_hydration_key rt
        = ({ rt with shared_context
              := some { count := 1, context := none, pending_fragments := [] } },
            toString (0 : Nat)) := by
      simp [Scope.next_hydration_key, h, SharedContext.default,
        SharedContext.next_hydration_key]
    simp only [nextHydrationKeys]
    rw [hstep]
    rw [nextHydrationKeys_some m _ { count := 1, context := none, pending_fragments := [] } rfl]
    simp [List.range_eq_range', List.range'_succ]

/-- C7: correlation-key generation is deterministic in request order: two
independent runs (each starting with no active session) that request `n`
keys produce identical sequences, namely the ordinals 0..n-1, so a key
depends only on how many keys were requested before it. -/
theorem hydration_keys_deterministic (rt1 rt2 : Runtime) (n : Nat)
    (h1 : rt1.shared_context = none) (h2 : rt2.shared_context = none) :
    nextHydrationKeys rt1 n = nextHydrationKeys rt2 n ∧
    nextHydrationKeys rt1 n = (List.range n).map (fun i => toString i) := by
  refine ⟨?_, nextHydrationKeys_fresh n rt1 h1⟩
  rw [nextHydrationKeys_fresh n rt1 h1, nextHydrationKeys_fresh n rt2 h2]

/-- Witness for C7: two distinct fresh runtimes produce the same first three
keys. -/
theorem hydration_keys_deterministic_witness :
    (⟨[], false, none⟩ : Runtime).shared_context = none ∧
    (⟨[(0, ⟨none, [], [], [], [], [], []⟩)], true, none⟩ : Runtime).shared_context = none ∧
    (nextHydrationKeys ⟨[], false, none⟩ 3
        = nextHydrationKeys ⟨[(0, ⟨none, [], [], [], [], [], []⟩)], true, none⟩ 3 ∧
      nextHydrationKeys ⟨[], false, none⟩ 3 = (List.range 3).map (fun i => toString i)) :=
  ⟨rfl, rfl,
    hydration_keys_deterministic ⟨[], false, none⟩
      ⟨[(0, ⟨none, [], [], [], [], [], []⟩)], true, none⟩ 3 rfl rfl⟩

/-- C8: requesting a correlation key with no active session does not fail:
it lazily creates a fresh session, installs it (already advanced past its
first key) in the runtime, and returns that session's first key, "0". -/
theorem next_hydration_key_lazy_init (rt : Runtime) (h : rt.shared_context = none) :
    Scope.next_hydration_key rt
      = ({ rt with shared_context := some (SharedContext.default.next_hydration_key).1 },
          (SharedContext.default.next_hydration_key).2) ∧
    (Scope.next_hydration_key rt).2 = "0" ∧
    (Scope.next_hydration_key rt).1.shared_context
      = some { count := 1, context := none, pending_fragments := [] } := by
  refine ⟨?_, ?_, ?_⟩
  · simp [Scope.next_hydration_key, h, SharedContext.default,
      SharedContext.next_hydration_key]
  · simp only [Scope.next_hydration_key, h]
    rfl
  · simp only [Scope.next_hydration_key, h]
    rfl

/-- Witness for C8 on a concrete runtime with no session. -/
theorem next_hydration_key_lazy_init_witness :
    (⟨[], false, none⟩ : Runtime).shared_context = none ∧
    (Scope.next_hydration_key ⟨[], false, none⟩
        = ({ (⟨[], false, none⟩ : Runtime) with
              shared_context := some (SharedContext.default.next_hydration_key).1 },
            (SharedContext.default.next_hydration_key).2) ∧
      (Scope.next_hydration_key ⟨[], false, none⟩).2 = "0" ∧
      (Scope.next_hydration_key ⟨[], false, none⟩).1.shared_context
        = some { count := 1, context := none, pending_fragments := [] }) :=
  ⟨rfl, next_hydration_key_lazy_init ⟨[], false, none⟩ rfl⟩

/-! ### Nested hydration context -/

/-- C10: `with_next_context` always runs its closure with ambient dependency
tracking suppressed (the closure observes the flag set, in both branches);
when a nested hydration context is active it swaps in the derived child
context before running the closure (the closure observes the derived
value), and after a normal return it writes the previous context back —
but on an abnormal exit (`Except.error`, modelling a panic unwinding past
the write-back) the derived child context is left installed. -/
theorem with_next_context_behavior (rt : Runtime) (sc : SharedContext) (ctx : Nat)
    (h1 : rt.shared_context = some sc) (h2 : sc.context = some ctx) :
    (∀ q : Runtime,
      (Scope.with_next_context q
          (fun w => (w, (Except.ok w.untracking : Except Unit Bool)))).2
        = Except.ok true) ∧
    (Scope.with_next_context rt
        (fun w => (w, (Except.ok (w.shared_context.bind SharedContext.context)
            : Except Unit (Option Nat))))).2
      = Except.ok (some (nextHydrationContext ctx)) ∧
    (∀ v : Nat,
      (Scope.with_next_context rt
            (fun w => (w, (Except.ok v : Except Unit Nat)))).1.shared_context
          = some { sc with context := some ctx } ∧
      (Scope.with_next_context rt (fun w => (w, (Except.ok v : Except Unit Nat)))).2
          = Except.ok v) ∧
    (∀ e : Nat,
      (Scope.with_next_context rt
            (fun w => (w, (Except.error e : Except Nat Unit)))).1.shared_context
          = some { sc with context := some (nextHydrationContext ctx) } ∧
      (Scope.with_next_context rt (fun w => (w, (Except.error e : Except Nat Unit)))).2
          = Except.error e) := by
  refine ⟨?_, ?_, ?_, ?_⟩
  · intro q
    unfold Scope.with_next_context
    split
    · rfl
    · rfl
  · simp [Scope.with_next_context, h1, h2, Runtime.untrack]
  · intro v
    constructor
    · simp [Scope.with_next_context, h1, h2, Runtime.untrack]
    · simp [Scope.with_next_context, h1, h2, Runtime.untrack]
  · intro e
    constructor
    · simp [Scope.with_next_context, h1, h2, Runtime.untrack]
    · simp [Scope.with_next_context, h1, h2, Runtime.untrack]

/-- Witness for C10 on a concrete runtime with an active nested context. -/
theorem with_next_context_behavior_witness :
    (⟨[], false, some ⟨4, some 6, []⟩⟩ : Runtime).shared_context = some ⟨4, some 6, []⟩ ∧
    (⟨4, some 6, []⟩ : SharedContext).context = some 6 ∧
    ((∀ q : Runtime,
        (Scope.with_next_context q
            (fun w => (w, (Except.ok w.untracking : Except Unit Bool)))).2
          = Except.ok true) ∧
      (Scope.with_next_context (⟨[], false, some ⟨4, some 6, []⟩⟩ : Runtime)
          (fun w => (w, (Except.ok (w.shared_context.bind SharedContext.context)
              : Except Unit (Option Nat))))).2
        = Except.ok (some (nextHydrationContext 6)) ∧
      (∀ v : Nat,
        (Scope.with_next_context (⟨[], false, some ⟨4, some 6, []⟩⟩ : Runtime)
              (fun w => (w, (Except.ok v : Except Unit Nat)))).1.shared_context
            = some { (⟨4, some 6, []⟩ : SharedContext) with context := some 6 } ∧
        (Scope.with_next_context (⟨[], false, some ⟨4, some 6, []⟩⟩ : Runtime)
            (fun w => (w, (Except.ok v : Except Unit Nat)))).2 = Except.ok v) ∧
      (∀ e : Nat,
        (Scope.with_next_context (⟨[], false, some ⟨4, some 6, []⟩⟩ : Runtime)
              (fun w => (w, (Except.error e : Except Nat Unit)))).1.shared_context
            = some { (⟨4, some 6, []⟩ : SharedContext) with
                context := some (nextHydrationContext 6) } ∧
        (Scope.with_next_context (⟨[], false, some ⟨4, some 6, []⟩⟩ : Runtime)
            (fun w => (w, (Except.error e : Except Nat Unit)))).2 = Except.error e)) :=
  ⟨rfl, rfl,
    with_next_context_behavior ⟨[], false, some ⟨4, some 6, []⟩⟩ ⟨4, some 6, []⟩ 6 rfl rfl⟩

/-! ### Suspense hand-off -/

/-- If the channel is occupied or the fragment resolved after a trace, then
either it already was so at the start, or some effect run in the trace
observed a pending count of zero. -/
theorem suspRun_active (tr : List SuspStep) :
    ∀ s : SuspState,
      ((suspRun s tr).slot = true ∨ (suspRun s tr).resolved = true) →
      (s.slot = true ∨ s.resolved = true) ∨ SuspStep.effectRun 0 ∈ tr := by
  induction tr with
  | nil =>
    intro s h
    exact Or.inl h
  | cons st tr ih =>
    intro s h
    rcases ih (suspStep s st) h with hA | hMem
    · cases st with
      | effectRun p =>
        by_cases hp : suspenseEffectBody p
        · have hp0 : p = 0 := by simpa [suspenseEffectBody] using hp
          exact Or.inr (by simp [hp0])
        · left
          simpa [suspStep, hp] using hA
      | consume =>
        by_cases hs : s.slot
        · exact Or.inl (Or.inl hs)
        · left
          simpa [suspStep, hs] using hA
    · exact Or.inr (List.mem_cons_of_mem st hMem)

/-- The channel invariant of the suspense hand-off: at most one meaningful
send ever happens, the counter is zero while nothing was sent, exactly one
while a notification is in flight, and exactly one once resolved. -/
def suspInv (s : SuspState) : Prop :=
  s.sent ≤ 1 ∧
  (s.resolved = false → s.slot = false → s.sent = 0) ∧
  (s.resolved = false → s.slot = true → s.sent = 1) ∧
  (s.resolved = true → s.sent = 1)

/-- The channel invariant is preserved by every step. -/
theorem suspStep_inv {s : SuspState} (h : suspInv s) (st : SuspStep) :
    suspInv (suspStep s st) := by
  obtain ⟨slot, resolved, sent⟩ := s
  obtain ⟨h1, h2, h3, h4⟩ := h
  cases st with
  | effectRun p =>
    by_cases hp : suspenseEffectBody p
    · cases slot with
      | true =>
        have hstep : suspStep ⟨true, resolved, sent⟩ (SuspStep.effectRun p)
            = ⟨true, resolved, sent⟩ := by
          simp [suspStep, hp]
        rw [hstep]
        exact ⟨h1, h2, h3, h4⟩
      | false =>
        cases resolved with
        | false =>
          have h0 : sent = 0 := h2 rfl rfl
          subst h0
          simp [suspStep, hp, suspInv]
        | true =>
          have h0 : sent = 1 := h4 rfl
          subst h0
          simp [suspStep, hp, suspInv]
    · have hstep : suspStep ⟨slot, resolved, sent⟩ (SuspStep.effectRun p)
          = ⟨slot, resolved, sent⟩ := by
        simp [suspStep, hp]
      rw [hstep]
      exact ⟨h1, h2, h3, h4⟩
  | consume =>
    cases slot with
    | false =>
      have hstep : suspStep ⟨false, resolved, sent⟩ SuspStep.consume
          = ⟨false, resolved, sent⟩ := by
        simp [suspStep]
      rw [hstep]
      exact ⟨h1, h2, h3, h4⟩
    | true =>
      cases resolved with
      | false =>
        have h0 : sent = 1 := h3 rfl rfl
        subst h0
        simp [suspStep, suspInv]
      | true =>
        have h0 : sent = 1 := h4 rfl
        subst h0
        simp [suspStep, suspInv]

/-- The channel invariant holds after any trace from an invariant state. -/
theorem suspRun_inv (tr : List SuspStep) :
    ∀ s : SuspState, suspInv s → suspInv (suspRun s tr) := by
  induction tr with
  | nil => intro s h; exact h
  | cons st tr ih => intro s h; exact ih _ (suspStep_inv h st)

/-- C9: the suspense hand-off never resolves its pending fragment before the
pending-resource count reaches zero: if the fragment resolved after some
trace of effect re-evaluations and channel polls, then some effect run
observed a pending count of zero (the producer signals only then, by
`suspenseEffectBody`), and exactly one meaningful completion signal was sent
before the fragment resolved. -/
theorem register_suspense_safety (tr : List SuspStep)
    (h : (suspRun suspInit tr).resolved = true) :
    SuspStep.effectRun 0 ∈ tr ∧ (suspRun suspInit tr).sent = 1 := by
  constructor
  · rcases suspRun_active tr suspInit (Or.inr h) with hA | hM
    · rcases hA with hs | hs <;> simp [suspInit] at hs
    · exact hM
  · have hinv := suspRun_inv tr suspInit ⟨by simp [suspInit], fun _ _ => rfl,
      by simp [suspInit], by simp [suspInit]⟩
    exact hinv.2.2.2 h

/-- Witness for C9: the effect first sees two pending resources, then zero
(sending the notification), and the fragment then polls and resolves. -/
theorem register_suspense_safety_witness :
    (suspRun suspInit
        [SuspStep.effectRun 2, SuspStep.effectRun 0, SuspStep.consume]).resolved = true ∧
    (SuspStep.effectRun 0
        ∈ [SuspStep.effectRun 2, SuspStep.effectRun 0, SuspStep.consume] ∧
      (suspRun suspInit
          [SuspStep.effectRun 2, SuspStep.effectRun 0, SuspStep.consume]).sent = 1) :=
  ⟨by decide,
    register_suspense_safety [SuspStep.effectRun 2, SuspStep.effectRun 0, SuspStep.consume]
      (by decide)⟩

/-! ### Fuel adequacy for the disposal recursion -/

/-- Disposal only removes arena entries, so the arena never grows. -/
theorem disposeF_length_le :
    ∀ (fuel : Nat) (rt : Runtime) (id : Nat),
      (disposeF fuel rt id).1.scopes.length ≤ rt.scopes.length := by
  intro fuel
  induction fuel with
  | zero => intro rt id; simp [disposeF]
  | succ n ih =>
    have seqL : ∀ (cs : List Nat) (rt : Runtime),
        (disposeSeq n rt cs).1.scopes.length ≤ rt.scopes.length := by
      intro cs
      induction cs with
      | nil => intro rt; simp [disposeSeq]
      | cons c cs ihc =>
        intro rt
        simp only [disposeSeq]
        exact le_trans (ihc _) (ih _ _)
    intro rt id
    cases hr : removeA rt.scopes id with
    | none => simp [disposeF_noop hr]
    | some pr =>
      obtain ⟨s, rest⟩ := pr
      have hseq : (disposeSeq n { rt with scopes := rest } s.children).1.scopes.length
          ≤ rest.length := seqL _ _
      have hlen : rt.scopes.length = rest.length + 1 := removeA_length hr
      rw [disposeF_succ_some hr]
      show (disposeSeq n { rt with scopes := rest } s.children).1.scopes.length
          ≤ rt.scopes.length
      omega

/-- Any fuel at least the arena size computes the same disposal, so
`Scope.dispose` (which uses the arena size) is the source's unbounded
recursion. -/
theorem disposeF_fuel_irrelevant :
    ∀ (fuel1 : Nat) (rt : Runtime) (id : Nat) (fuel2 : Nat),
      rt.scopes.length ≤ fuel1 → rt.scopes.length ≤ fuel2 →
      disposeF fuel1 rt id = disposeF fuel2 rt id := by
  intro fuel1
  induction fuel1 with
  | zero =>
    intro rt id fuel2 h1 h2
    have harena : rt.scopes = [] := List.length_eq_zero.mp (Nat.le_zero.mp h1)
    have hr : removeA rt.scopes id = none := by rw [harena]; rfl
    rw [disposeF_noop hr, disposeF_noop hr]
  | succ n ih =>
    intro rt id fuel2 h1 h2
    cases hr : removeA rt.scopes id with
    | none => rw [disposeF_noop hr, disposeF_noop hr]
    | some pr =>
      obtain ⟨s, rest⟩ := pr
      have hlen : rt.scopes.length = rest.length + 1 := removeA_length hr
      cases fuel2 with
      | zero => exfalso; omega
      | succ m =>
        rw [disposeF_succ_some hr, disposeF_succ_some hr]
        have seqEq : ∀ (cs : List Nat) (rt2 : Runtime),
            rt2.scopes.length ≤ n → rt2.scopes.length ≤ m →
            disposeSeq n rt2 cs = disposeSeq m rt2 cs := by
          intro cs
          induction cs with
          | nil => intro rt2 _ _; rfl
          | cons c cs ihc =>
            intro rt2 ha hb
            simp only [disposeSeq]
            rw [ih rt2 c m ha hb]
            rw [ihc (disposeF m rt2 c).1
              (le_trans (disposeF_length_le m rt2 c) ha)
              (le_trans (disposeF_length_le m rt2 c) hb)]
        have hre : rest.length ≤ n := by omega
        have hrm : rest.length ≤ m := by omega
        rw [seqEq s.children { rt with scopes := rest } hre hrm]
